import Mathlib

/-!
Shallow embedding of the `scanner` program (src/main.go): a long-lived poller
that walks a remote directory tree, classifies each file by filename leading
string against a rule table loaded from a persistent store, deduplicates on
the file's full path, and records each newly-seen file once.

Modelling choices:
* Go strings are `String` (a `List Char`); `strings.ToLower` and
  `strings.HasPrefix` are embedded as `strToLower` / `strHasPrefix`.
* The Go `map[string]int` is an association list with distinct keys and
  last-write-wins assignment (`mapSet`); indexing a missing key yields the
  zero value `0` (`mapGet`), exactly as in Go.
* Map iteration order is nondeterministic in Go, and `sort.Slice` is an
  unstable sort, so `matchPrefixToTypeID` is modelled in two layers: the
  deterministic tail (`matchWithOrder`) over an explicit post-sort slice, and
  the predicate `iterOrder` describing every slice the Go code can produce
  (a permutation of the keys, sorted by non-increasing length). The
  executable `matchPrefixToTypeID` instantiates one such order.
* The persistent store and the SFTP walker are external collaborators; they
  are embedded as explicit data (row lists, entry lists) plus a fault record
  describing which store operations fail.
-/

namespace Scanner

/-- Embedding of `strings.ToLower` on the ASCII fragment the rule prefixes
and filenames use: each character lower-cased. -/
def strToLower (s : String) : String := ⟨s.data.map Char.toLower⟩

/-- Helper for `strings.HasPrefix`: Boolean test that the first list is an
initial segment of the second. -/
def isPrefixList : List Char → List Char → Bool
  | [], _ => true
  | _ :: _, [] => false
  | a :: as, b :: bs => a == b && isPrefixList as bs

/-- Embedding of `strings.HasPrefix s pre`. -/
def strHasPrefix (s pre : String) : Bool := isPrefixList pre.data s.data

/-- The `Config` struct of src/main.go. -/
structure Config where
  oracleDSN : String
  sshUser : String
  sshPassword : String
  sshHost : String
  sshPort : Int
  watchDir : String
  scanInterval : Int
deriving Repr, DecidableEq

/-- A configuration document (the parsed JSON object): each field either
present or omitted. -/
structure ConfigDoc where
  oracleDSN : Option String
  sshUser : Option String
  sshPassword : Option String
  sshHost : Option String
  sshPort : Option Int
  watchDir : Option String
  scanInterval : Option Int
deriving Repr, DecidableEq

/-- Embedding of `json.Unmarshal` into the `Config` struct: a field omitted
from the document is left at its Go zero value (`""` / `0`). -/
def unmarshalConfig (d : ConfigDoc) : Config where
  oracleDSN := d.oracleDSN.getD ""
  sshUser := d.sshUser.getD ""
  sshPassword := d.sshPassword.getD ""
  sshHost := d.sshHost.getD ""
  sshPort := d.sshPort.getD 0
  watchDir := d.watchDir.getD ""
  scanInterval := d.scanInterval.getD 0

/-- Embedding of `loadConfig` (src/main.go lines 61-85), after the file has
been read and unmarshalled: the defaulting block for `SSHPort`, `WatchDir`
and `ScanInterval`. -/
def loadConfig (d : ConfigDoc) : Config :=
  let c0 := unmarshalConfig d
  let c1 := if c0.sshPort = 0 then { c0 with sshPort := 22 } else c0
  let c2 := if c1.watchDir = "" then { c1 with watchDir := "./watch_folder" } else c1
  if c2.scanInterval = 0 then { c2 with scanInterval := 24 } else c2

/-- Keys of a map snapshot, in insertion order. -/
def keysOf (m : List (String × Int)) : List String := m.map Prod.fst

/-- Go map indexing `m[k]`: the stored value, or the zero value `0` when the
key is absent. -/
def mapGet (m : List (String × Int)) (k : String) : Int :=
  match m.find? (fun kv => kv.1 == k) with
  | some kv => kv.2
  | none => 0

/-- Go map assignment `m[k] = v`: overwrite the existing entry for `k`, or
add a new one. -/
def mapSet (m : List (String × Int)) (k : String) (v : Int) : List (String × Int) :=
  if m.any (fun kv => kv.1 == k) then
    m.map (fun kv => if kv.1 == k then (k, v) else kv)
  else m ++ [(k, v)]

/-- Body of the row-scan loop of `loadTypePrefixMap` (src/main.go lines
171-179): a row is `none` when `rows.Scan` fails on it (it is logged and
skipped); a scanned row stores its lower-cased first column as key. -/
def addRow (m : List (String × Int)) : Option (String × Int) → List (String × Int)
  | none => m
  | some (p, i) => mapSet m (strToLower p) i

/-- Row-scan loop of `loadTypePrefixMap` (src/main.go lines 170-179). -/
def buildTypeMap (rows : List (Option (String × Int))) : List (String × Int) :=
  rows.foldl addRow []

/-- Embedding of `loadTypePrefixMap` (src/main.go lines 163-182):
`queryFails` models `db.Query` itself returning an error, which is wrapped
and escalated to the caller; otherwise every scannable row is folded into
the map. -/
def loadTypePrefixMap (queryFails : Bool) (rows : List (Option (String × Int))) :
    Except String (List (String × Int)) :=
  if queryFails then Except.error "error en consulta"
  else Except.ok (buildTypeMap rows)

/-- Match loop of `matchPrefixToTypeID` (src/main.go lines 195-199): first
entry of the slice that is an initial segment of the (already lower-cased)
filename wins; no match yields `0`. -/
def findMatch (fn : String) (typeMap : List (String × Int)) : List String → Int
  | [] => 0
  | p :: ps => if strHasPrefix fn p then mapGet typeMap p else findMatch fn typeMap ps

/-- Comparison used on the key slice: `a` may appear before `b` exactly when
`b` is no longer than `a` (the negation of the `sort.Slice` strict `>`
comparator applied the other way round). -/
abbrev lenDesc (a b : String) : Prop := b.length ≤ a.length

instance : IsTotal String lenDesc := ⟨fun a b => Nat.le_total b.length a.length⟩

instance : IsTrans String lenDesc := ⟨fun _ _ _ hab hbc => le_trans hbc hab⟩

/-- The slice is sorted by non-increasing key length, the postcondition of
the `sort.Slice` call at src/main.go lines 191-193. -/
abbrev sortedByLenDesc (l : List String) : Prop :=
  l.Pairwise lenDesc

/-- The slices the Go code can feed to its match loop: any permutation of
the map's keys (map iteration order), sorted by non-increasing length
(`sort.Slice` is unstable, so ties may land in any order). -/
def iterOrder (typeMap : List (String × Int)) (l : List String) : Prop :=
  l.Perm (keysOf typeMap) ∧ sortedByLenDesc l

/-- Embedding of `matchPrefixToTypeID` (src/main.go lines 184-202) with the
post-sort slice made explicit: lower-case the filename, then scan the slice. -/
def matchWithOrder (filename : String) (typeMap : List (String × Int)) (l : List String) : Int :=
  findMatch (strToLower filename) typeMap l

/-- A concrete sort by non-increasing length (one admissible outcome of the
`sort.Slice` call). -/
def sortByLenDesc (l : List String) : List String := List.insertionSort lenDesc l

/-- Executable `matchPrefixToTypeID`: one admissible iteration order.
Theorem `matchWithOrder_deterministic` shows every admissible order gives
the same answer, so this function is the function the Go code computes. -/
def matchPrefixToTypeID (filename : String) (typeMap : List (String × Int)) : Int :=
  matchWithOrder filename typeMap (sortByLenDesc (keysOf typeMap))

/-- A row of the `files` table (the `FileRecord` of the spec). -/
structure FileRecord where
  name : String
  path : String
  size : Int
  modTime : Int
  typeID : Int
deriving Repr, DecidableEq

/-- One entry yielded by the SFTP walker: `fi := walker.Stat()` plus
`walker.Path()`. -/
structure Entry where
  isDir : Bool
  name : String
  path : String
  size : Int
  modTime : Int
deriving Repr, DecidableEq

/-- Fault injection for the persistent store: whether the rule-table query
fails, and for which paths the existence query / the insert statement fail. -/
structure Faults where
  rulesQueryFails : Bool
  existsFailPaths : List String
  insertFailPaths : List String
deriving Repr, DecidableEq

/-- The fault-free store. -/
def noFaults : Faults := ⟨false, [], []⟩

/-- The `SELECT COUNT(1) FROM files WHERE path = :1` result. -/
def countMatching (files : List FileRecord) (p : String) : Nat :=
  (files.filter (fun r => r.path == p)).length

/-- Embedding of `fileExistsInDB` (src/main.go lines 204-211): a failing
query is returned as an error (with `false` as the accompanying zero value);
otherwise the answer is `COUNT(1) > 0`. -/
def fileExistsInDB (flt : Faults) (files : List FileRecord) (p : String) :
    Except String Bool :=
  if p ∈ flt.existsFailPaths then Except.error "query failed"
  else Except.ok (decide (0 < countMatching files p))

/-- Embedding of `insertFile` (src/main.go lines 213-221): a failing insert
is logged and swallowed, leaving the table unchanged; a successful one
appends the row. -/
def insertFile (flt : Faults) (files : List FileRecord) (r : FileRecord) :
    List FileRecord :=
  if r.path ∈ flt.insertFailPaths then files else files ++ [r]

/-- Outcome of one orchestrator cycle: the walk either completes or aborts
with an error; either way the store keeps the rows written so far.
`inserted` instruments the rows this cycle appended. -/
inductive ScanResult where
  | ok (files : List FileRecord) (inserted : List FileRecord)
  | err (msg : String) (files : List FileRecord) (inserted : List FileRecord)
deriving Repr, DecidableEq

/-- The store contents after the cycle. -/
def ScanResult.files : ScanResult → List FileRecord
  | .ok fs _ => fs
  | .err _ fs _ => fs

/-- The rows the cycle appended. -/
def ScanResult.inserted : ScanResult → List FileRecord
  | .ok _ ins => ins
  | .err _ _ ins => ins

/-- Walk loop of `scanAndStoreFiles` (src/main.go lines 128-159). Per entry:
a walker error aborts the walk; directories are skipped; an existence-check
error aborts the walk; an already-recorded path is skipped; a `0` type id is
skipped with a diagnostic; otherwise the record is inserted (best-effort)
and the walk continues. -/
def processEntries (flt : Faults) (typeMap : List (String × Int)) :
    List (Except String Entry) → List FileRecord → List FileRecord → ScanResult
  | [], files, ins => .ok files ins
  | Except.error e :: _, files, ins => .err e files ins
  | Except.ok fi :: rest, files, ins =>
    if fi.isDir then processEntries flt typeMap rest files ins
    else
      match fileExistsInDB flt files fi.path with
      | Except.error e => .err e files ins
      | Except.ok true => processEntries flt typeMap rest files ins
      | Except.ok false =>
        let typeID := matchPrefixToTypeID fi.name typeMap
        if typeID = 0 then processEntries flt typeMap rest files ins
        else
          let r : FileRecord := ⟨fi.name, fi.path, fi.size, fi.modTime, typeID⟩
          let files' := insertFile flt files r
          processEntries flt typeMap rest files' (ins ++ files'.drop files.length)

/-- Embedding of `scanAndStoreFiles` (src/main.go lines 122-161): load the
rule map (escalating a load failure, with no walk attempted), then walk. -/
def scanAndStoreFiles (flt : Faults) (rows : List (Option (String × Int)))
    (walk : List (Except String Entry)) (files : List FileRecord) : ScanResult :=
  match loadTypePrefixMap flt.rulesQueryFails rows with
  | Except.error e =>
      .err ("no se pudieron cargar los prefijos de tipo: " ++ e) files []
  | Except.ok typeMap => processEntries flt typeMap walk files []

/-- Body of main's poll loop (src/main.go lines 52-58): the scan runs, any
error it returns is logged, and the loop proceeds; only the store contents
survive to the next cycle. -/
def cycleFiles (flt : Faults) (rows : List (Option (String × Int)))
    (walk : List (Except String Entry)) (files : List FileRecord) : List FileRecord :=
  (scanAndStoreFiles flt rows walk files).files

/-- Finitely many iterations of the poll loop, each with its own fault
pattern but an unchanged tree and rule table. -/
def runCycles (rows : List (Option (String × Int)))
    (walk : List (Except String Entry)) :
    List Faults → List FileRecord → List FileRecord
  | [], files => files
  | flt :: rest, files => runCycles rows walk rest (cycleFiles flt rows walk files)

/-- Paths of the rows of the files table. -/
def pathsOf (files : List FileRecord) : List String := files.map FileRecord.path

/-! ### Facts about initial segments -/

theorem isPrefixList_length {p s : List Char} (h : isPrefixList p s = true) :
    p.length ≤ s.length := by
  induction p generalizing s with
  | nil => simp
  | cons a as ih =>
    cases s with
    | nil => simp [isPrefixList] at h
    | cons b bs =>
      simp only [isPrefixList, Bool.and_eq_true, beq_iff_eq] at h
      simpa using ih h.2

theorem isPrefixList_uniq {p q s : List Char}
    (hp : isPrefixList p s = true) (hq : isPrefixList q s = true)
    (hlen : p.length = q.length) : p = q := by
  induction p generalizing q s with
  | nil =>
    cases q with
    | nil => rfl
    | cons b bs => simp at hlen
  | cons a as ih =>
    cases q with
    | nil => simp at hlen
    | cons b bs =>
      cases s with
      | nil => simp [isPrefixList] at hp
      | cons c cs =>
        simp only [isPrefixList, Bool.and_eq_true, beq_iff_eq] at hp hq
        simp only [List.length_cons, Nat.succ_inj] at hlen
        rw [hp.1, hq.1, ih hp.2 hq.2 hlen]

/-- Two matching rule keys of equal length are the same key: a genuine
length tie between two distinct matching rules is impossible. -/
theorem strHasPrefix_uniq {s p q : String}
    (hp : strHasPrefix s p = true) (hq : strHasPrefix s q = true)
    (hlen : p.length = q.length) : p = q := by
  have h := isPrefixList_uniq (p := p.data) (q := q.data) (s := s.data) hp hq hlen
  cases p; cases q; exact congrArg String.mk h

/-! ### Facts about the match loop -/

theorem findMatch_eq_zero {fn : String} {tm : List (String × Int)} {l : List String}
    (h : ∀ p ∈ l, strHasPrefix fn p = false) : findMatch fn tm l = 0 := by
  induction l with
  | nil => rfl
  | cons a l ih =>
    have ha := h a (List.mem_cons_self a l)
    simp only [findMatch, ha, Bool.false_eq_true, if_false]
    exact ih fun p hp => h p (List.mem_cons_of_mem a hp)

/-- On a length-sorted slice, if `p` is a matching key of maximal length
among the slice's matching keys, the loop returns that key's value. -/
theorem findMatch_longest {fn : String} {tm : List (String × Int)} {l : List String}
    (hs : sortedByLenDesc l) {p : String} (hmem : p ∈ l)
    (hmatch : strHasPrefix fn p = true)
    (hmax : ∀ q ∈ l, strHasPrefix fn q = true → q.length ≤ p.length) :
    findMatch fn tm l = mapGet tm p := by
  induction l with
  | nil => cases hmem
  | cons a l ih =>
    simp only [sortedByLenDesc, List.pairwise_cons] at hs
    by_cases ha : strHasPrefix fn a = true
    · simp only [findMatch, ha, if_true]
      rcases List.mem_cons.mp hmem with rfl | hmem'
      · rfl
      · have hal : a.length ≤ p.length := hmax a (List.mem_cons_self a l) ha
        have hpa : p.length ≤ a.length := hs.1 p hmem'
        rw [strHasPrefix_uniq ha hmatch (le_antisymm hal hpa)]
    · simp only [findMatch, ha, Bool.false_eq_true, if_false]
      rcases List.mem_cons.mp hmem with rfl | hmem'
      · exact absurd hmatch ha
      · exact ih hs.2 hmem' fun q hq hmq => hmax q (List.mem_cons_of_mem a hq) hmq

/-- Every run of the match loop on a length-sorted slice either finds no
matching key at all, or returns the value of a matching key of maximal
length. -/
theorem findMatch_spec (fn : String) (tm : List (String × Int)) {l : List String}
    (hs : sortedByLenDesc l) :
    (∀ p ∈ l, strHasPrefix fn p = false) ∨
    ∃ p ∈ l, strHasPrefix fn p = true ∧
      (∀ q ∈ l, strHasPrefix fn q = true → q.length ≤ p.length) ∧
      findMatch fn tm l = mapGet tm p := by
  induction l with
  | nil => exact Or.inl (by simp)
  | cons a l ih =>
    simp only [sortedByLenDesc, List.pairwise_cons] at hs
    by_cases ha : strHasPrefix fn a = true
    · refine Or.inr ⟨a, List.mem_cons_self a l, ha, ?_, ?_⟩
      · intro q hq hmq
        rcases List.mem_cons.mp hq with rfl | hq'
        · exact le_refl _
        · exact hs.1 q hq'
      · simp [findMatch, ha]
    · rcases ih hs.2 with hnone | ⟨p, hmem, hm, hmax, heq⟩
      · refine Or.inl fun q hq => ?_
        rcases List.mem_cons.mp hq with rfl | hq'
        · exact Bool.eq_false_iff.mpr ha
        · exact hnone q hq'
      · refine Or.inr ⟨p, List.mem_cons_of_mem a hmem, hm, ?_, ?_⟩
        · intro q hq hmq
          rcases List.mem_cons.mp hq with rfl | hq'
          · exact absurd hmq ha
          · exact hmax q hq' hmq
        · simp only [findMatch, ha, Bool.false_eq_true, if_false]
          exact heq

/-- The match result does not depend on which admissible slice the map
iteration and the unstable sort produced. -/
theorem matchWithOrder_deterministic {filename : String} {tm : List (String × Int)}
    {l₁ l₂ : List String} (h₁ : iterOrder tm l₁) (h₂ : iterOrder tm l₂) :
    matchWithOrder filename tm l₁ = matchWithOrder filename tm l₂ := by
  obtain ⟨hp₁, hs₁⟩ := h₁
  obtain ⟨hp₂, hs₂⟩ := h₂
  have hmem : ∀ q : String, q ∈ l₁ ↔ q ∈ l₂ := fun q =>
    (hp₁.mem_iff).trans (hp₂.mem_iff).symm
  rcases findMatch_spec (strToLower filename) tm hs₁ with hnone | ⟨p, hpm, hm, hmax, heq⟩
  · have hnone₂ : ∀ q ∈ l₂, strHasPrefix (strToLower filename) q = false :=
      fun q hq => hnone q ((hmem q).mpr hq)
    unfold matchWithOrder
    rw [findMatch_eq_zero hnone, findMatch_eq_zero hnone₂]
  · unfold matchWithOrder
    rw [heq, findMatch_longest hs₂ ((hmem p).mp hpm) hm
      fun q hq hmq => hmax q ((hmem q).mpr hq) hmq]

/-- The concrete sort used by the executable classifier is an admissible
iteration order. -/
theorem iterOrder_sortByLenDesc (tm : List (String × Int)) :
    iterOrder tm (sortByLenDesc (keysOf tm)) :=
  ⟨List.perm_insertionSort lenDesc (keysOf tm),
   List.sorted_insertionSort lenDesc (keysOf tm)⟩

/-- The executable classifier agrees with every admissible run of the Go
code. -/
theorem matchPrefixToTypeID_eq_matchWithOrder {filename : String}
    {tm : List (String × Int)} {l : List String} (h : iterOrder tm l) :
    matchPrefixToTypeID filename tm = matchWithOrder filename tm l :=
  matchWithOrder_deterministic (iterOrder_sortByLenDesc tm) h

/-! ### Facts about rule loading -/

/-- Two rows that agree up to letter case of the stored key column and
exactly on the identifier column (failing rows pair with failing rows). -/
def rowsCaseVariant : Option (String × Int) → Option (String × Int) → Prop
  | none, none => True
  | some (p, i), some (q, j) => strToLower p = strToLower q ∧ i = j
  | _, _ => False

/-- The loaded map depends only on the lower-cased key column: loading case
variants of the same rule rows builds the identical map. -/
theorem buildTypeMap_case {rows₁ rows₂ : List (Option (String × Int))}
    (h : List.Forall₂ rowsCaseVariant rows₁ rows₂) :
    buildTypeMap rows₁ = buildTypeMap rows₂ := by
  have key : ∀ m, rows₁.foldl addRow m = rows₂.foldl addRow m := by
    induction h with
    | nil => intro m; rfl
    | @cons a b l₁ l₂ hab htl ih =>
      intro m
      match a, b, hab with
      | none, none, _ =>
        simpa [addRow] using ih (addRow m none)
      | some (p, i), some (q, j), hab =>
        obtain ⟨hpq, rfl⟩ := hab
        simp only [List.foldl_cons, addRow, hpq]
        exact ih _
  exact key []

/-- A row the scan fails on is skipped and loading continues: removing it
from the row stream leaves the loaded map unchanged. -/
theorem buildTypeMap_skip (rows₁ rows₂ : List (Option (String × Int))) :
    buildTypeMap (rows₁ ++ none :: rows₂) = buildTypeMap (rows₁ ++ rows₂) := by
  simp [buildTypeMap, List.foldl_append, addRow]

/-! ### Facts about the walk loop -/

theorem countMatching_append (l₁ l₂ : List FileRecord) (p : String) :
    countMatching (l₁ ++ l₂) p = countMatching l₁ p + countMatching l₂ p := by
  simp [countMatching]

theorem countMatching_eq_zero {files : List FileRecord} {p : String} :
    countMatching files p = 0 ↔ p ∉ pathsOf files := by
  simp only [countMatching, List.length_eq_zero, List.filter_eq_nil_iff, beq_iff_eq,
    pathsOf, List.mem_map, not_exists]
  aesop

/-- One non-directory, non-erroring step of the walk loop, with the store
calls unfolded into their decision tree. -/
theorem processEntries_cons_ok (flt : Faults) (tm : List (String × Int)) (fi : Entry)
    (rest : List (Except String Entry)) (files ins : List FileRecord) :
    processEntries flt tm (Except.ok fi :: rest) files ins =
      if fi.isDir then processEntries flt tm rest files ins
      else if fi.path ∈ flt.existsFailPaths then ScanResult.err "query failed" files ins
      else if 0 < countMatching files fi.path then processEntries flt tm rest files ins
      else if matchPrefixToTypeID fi.name tm = 0 then processEntries flt tm rest files ins
      else if fi.path ∈ flt.insertFailPaths then processEntries flt tm rest files ins
      else
        processEntries flt tm rest
          (files ++ [⟨fi.name, fi.path, fi.size, fi.modTime, matchPrefixToTypeID fi.name tm⟩])
          (ins ++ [⟨fi.name, fi.path, fi.size, fi.modTime, matchPrefixToTypeID fi.name tm⟩]) := by
  rw [processEntries, fileExistsInDB]
  by_cases hdir : fi.isDir = true
  · simp [hdir]
  · by_cases hex : fi.path ∈ flt.existsFailPaths
    · simp [hdir, hex]
    · by_cases hcount : 0 < countMatching files fi.path
      · simp [hdir, hex, hcount]
      · by_cases ht : matchPrefixToTypeID fi.name tm = 0
        · simp [hdir, hex, hcount, ht]
        · by_cases hins : fi.path ∈ flt.insertFailPaths
          · simp [hdir, hex, hcount, ht, hins, insertFile, List.drop_length]
          · simp [hdir, hex, hcount, ht, hins, insertFile, List.drop_left]

/-- The walk loop only appends to the store, and the appended rows are
exactly the rows it instruments as inserted. -/
theorem processEntries_append (flt : Faults) (tm : List (String × Int)) :
    ∀ (walk : List (Except String Entry)) (files ins : List FileRecord),
      ∃ s, (processEntries flt tm walk files ins).files = files ++ s ∧
        (processEntries flt tm walk files ins).inserted = ins ++ s := by
  intro walk
  induction walk with
  | nil =>
    intro files ins
    exact ⟨[], by simp [processEntries, ScanResult.files, ScanResult.inserted]⟩
  | cons e rest ih =>
    intro files ins
    cases e with
    | error msg =>
      exact ⟨[], by simp [processEntries, ScanResult.files, ScanResult.inserted]⟩
    | ok fi =>
      rw [processEntries_cons_ok]
      by_cases hdir : fi.isDir = true
      · simpa [hdir] using ih files ins
      · by_cases hex : fi.path ∈ flt.existsFailPaths
        · exact ⟨[], by simp [hdir, hex, ScanResult.files, ScanResult.inserted]⟩
        · by_cases hcount : 0 < countMatching files fi.path
          · simpa [hdir, hex, hcount] using ih files ins
          · by_cases ht : matchPrefixToTypeID fi.name tm = 0
            · simpa [hdir, hex, hcount, ht] using ih files ins
            · by_cases hins : fi.path ∈ flt.insertFailPaths
              · simpa [hdir, hex, hcount, ht, hins] using ih files ins
              · obtain ⟨s, h1, h2⟩ :=
                  ih (files ++ [⟨fi.name, fi.path, fi.size, fi.modTime,
                    matchPrefixToTypeID fi.name tm⟩])
                    (ins ++ [⟨fi.name, fi.path, fi.size, fi.modTime,
                      matchPrefixToTypeID fi.name tm⟩])
                refine ⟨⟨fi.name, fi.path, fi.size, fi.modTime,
                  matchPrefixToTypeID fi.name tm⟩ :: s, ?_, ?_⟩ <;>
                  simp [hdir, hex, hcount, ht, hins, h1, h2]

/-- A row is appended only after the existence query answered `false`, so
path-uniqueness of the store is preserved by the walk. -/
theorem processEntries_nodup (flt : Faults) (tm : List (String × Int)) :
    ∀ (walk : List (Except String Entry)) (files ins : List FileRecord),
      (pathsOf files).Nodup →
      (pathsOf (processEntries flt tm walk files ins).files).Nodup := by
  intro walk
  induction walk with
  | nil =>
    intro files ins h
    simpa [processEntries, ScanResult.files] using h
  | cons e rest ih =>
    intro files ins h
    cases e with
    | error msg => simpa [processEntries, ScanResult.files] using h
    | ok fi =>
      rw [processEntries_cons_ok]
      by_cases hdir : fi.isDir = true
      · simpa [hdir] using ih files ins h
      · by_cases hex : fi.path ∈ flt.existsFailPaths
        · simpa [hdir, hex, ScanResult.files] using h
        · by_cases hcount : 0 < countMatching files fi.path
          · simpa [hdir, hex, hcount] using ih files ins h
          · by_cases ht : matchPrefixToTypeID fi.name tm = 0
            · simpa [hdir, hex, hcount, ht] using ih files ins h
            · by_cases hins : fi.path ∈ flt.insertFailPaths
              · simpa [hdir, hex, hcount, ht, hins] using ih files ins h
              · have hnot : fi.path ∉ pathsOf files :=
                  countMatching_eq_zero.mp (Nat.eq_zero_of_not_pos hcount)
                have h' : (pathsOf (files ++ [⟨fi.name, fi.path, fi.size, fi.modTime,
                    matchPrefixToTypeID fi.name tm⟩])).Nodup := by
                  simp [pathsOf, List.nodup_append] at h ⊢
                  exact ⟨h, fun r hr => fun hrp => hnot (by
                    simp [pathsOf, List.mem_map]
                    exact ⟨r, hr, hrp⟩)⟩
                simpa [hdir, hex, hcount, ht, hins] using ih _ _ h'

/-- Rows instrumented as inserted have pairwise distinct paths, and each of
their paths is in the store: an insert happens only for a path the store
did not hold yet. -/
theorem processEntries_inserted_nodup (flt : Faults) (tm : List (String × Int)) :
    ∀ (walk : List (Except String Entry)) (files ins : List FileRecord),
      (pathsOf ins).Nodup → (∀ r ∈ ins, r.path ∈ pathsOf files) →
      (pathsOf (processEntries flt tm walk files ins).inserted).Nodup ∧
      ∀ r ∈ (processEntries flt tm walk files ins).inserted,
        r.path ∈ pathsOf (processEntries flt tm walk files ins).files := by
  intro walk
  induction walk with
  | nil =>
    intro files ins h₁ h₂
    simpa [processEntries, ScanResult.files, ScanResult.inserted] using ⟨h₁, h₂⟩
  | cons e rest ih =>
    intro files ins h₁ h₂
    cases e with
    | error msg =>
      simpa [processEntries, ScanResult.files, ScanResult.inserted] using ⟨h₁, h₂⟩
    | ok fi =>
      rw [processEntries_cons_ok]
      by_cases hdir : fi.isDir = true
      · simpa [hdir] using ih files ins h₁ h₂
      · by_cases hex : fi.path ∈ flt.existsFailPaths
        · simpa [hdir, hex, ScanResult.files, ScanResult.inserted] using ⟨h₁, h₂⟩
        · by_cases hcount : 0 < countMatching files fi.path
          · simpa [hdir, hex, hcount] using ih files ins h₁ h₂
          · by_cases ht : matchPrefixToTypeID fi.name tm = 0
            · simpa [hdir, hex, hcount, ht] using ih files ins h₁ h₂
            · by_cases hins : fi.path ∈ flt.insertFailPaths
              · simpa [hdir, hex, hcount, ht, hins] using ih files ins h₁ h₂
              · have hnot : fi.path ∉ pathsOf files :=
                  countMatching_eq_zero.mp (Nat.eq_zero_of_not_pos hcount)
                have h₁' : (pathsOf (ins ++ [⟨fi.name, fi.path, fi.size, fi.modTime,
                    matchPrefixToTypeID fi.name tm⟩])).Nodup := by
                  simp only [pathsOf, List.map_append, List.map_cons, List.map_nil]
                  simp only [pathsOf] at h₁
                  refine List.Nodup.append h₁ (List.nodup_singleton _) ?_
                  intro p hp hp'
                  simp only [List.mem_singleton] at hp'
                  subst hp'
                  obtain ⟨r, hr, hrp⟩ := List.mem_map.mp hp
                  exact hnot (hrp ▸ h₂ r hr)
                have h₂' : ∀ r ∈ (ins ++ [⟨fi.name, fi.path, fi.size, fi.modTime,
                    matchPrefixToTypeID fi.name tm⟩]),
                    r.path ∈ pathsOf (files ++ [⟨fi.name, fi.path, fi.size, fi.modTime,
                      matchPrefixToTypeID fi.name tm⟩]) := by
                  intro r hr
                  simp only [pathsOf, List.map_append, List.mem_append] at h₂ ⊢
                  rcases List.mem_append.mp hr with hr' | hr'
                  · exact Or.inl (by simpa [pathsOf] using h₂ r hr')
                  · simp only [List.mem_singleton] at hr'
                    subst hr'
                    exact Or.inr (by simp)
                simpa [hdir, hex, hcount, ht, hins] using ih _ _ h₁' h₂'

/-- Re-walking an unchanged tree against the store state a fault-free walk
produced changes nothing and inserts nothing. -/
theorem processEntries_idem (tm : List (String × Int)) :
    ∀ (walk : List (Except String Entry)) (files ins files' ins' : List FileRecord),
      processEntries noFaults tm walk files ins = ScanResult.ok files' ins' →
      processEntries noFaults tm walk files' [] = ScanResult.ok files' [] := by
  intro walk
  induction walk with
  | nil =>
    intro files ins files' ins' h
    simp only [processEntries] at h
    cases h
    rfl
  | cons e rest ih =>
    intro files ins files' ins' h
    cases e with
    | error msg => simp [processEntries] at h
    | ok fi =>
      rw [processEntries_cons_ok] at h
      rw [processEntries_cons_ok]
      by_cases hdir : fi.isDir = true
      · rw [if_pos hdir] at h ⊢
        exact ih _ _ _ _ h
      · rw [if_neg hdir] at h ⊢
        rw [if_neg (by simp [noFaults])] at h ⊢
        by_cases hcount : 0 < countMatching files fi.path
        · rw [if_pos hcount] at h
          obtain ⟨s, hf, -⟩ := processEntries_append noFaults tm rest files ins
          have hfs : files' = files ++ s := by
            have := congrArg ScanResult.files h
            simpa [ScanResult.files] using this.symm.trans hf
          have hcount' : 0 < countMatching files' fi.path := by
            rw [hfs, countMatching_append]
            omega
          rw [if_pos hcount']
          exact ih _ _ _ _ h
        · rw [if_neg hcount] at h
          by_cases ht : matchPrefixToTypeID fi.name tm = 0
          · rw [if_pos ht] at h
            by_cases hcount' : 0 < countMatching files' fi.path
            · rw [if_pos hcount']
              exact ih _ _ _ _ h
            · rw [if_neg hcount', if_pos ht]
              exact ih _ _ _ _ h
          · rw [if_neg ht, if_neg (by simp [noFaults])] at h
            obtain ⟨s, hf, -⟩ := processEntries_append noFaults tm rest
              (files ++ [⟨fi.name, fi.path, fi.size, fi.modTime,
                matchPrefixToTypeID fi.name tm⟩])
              (ins ++ [⟨fi.name, fi.path, fi.size, fi.modTime,
                matchPrefixToTypeID fi.name tm⟩])
            have hfs : files' = (files ++ [⟨fi.name, fi.path, fi.size, fi.modTime,
                matchPrefixToTypeID fi.name tm⟩]) ++ s := by
              have := congrArg ScanResult.files h
              simpa [ScanResult.files] using this.symm.trans hf
            have hcount' : 0 < countMatching files' fi.path := by
              rw [hfs, countMatching_append, countMatching_append]
              have : countMatching [(⟨fi.name, fi.path, fi.size, fi.modTime,
                  matchPrefixToTypeID fi.name tm⟩ : FileRecord)] fi.path = 1 := by
                simp [countMatching]
              omega
            rw [if_pos hcount']
            exact ih _ _ _ _ h

/-- Every non-directory entry of a completed fault-free walk whose filename
classifies to a nonzero type ends up recorded in the store. -/
theorem processEntries_covers (tm : List (String × Int)) :
    ∀ (walk : List (Except String Entry)) (files ins files' ins' : List FileRecord),
      processEntries noFaults tm walk files ins = ScanResult.ok files' ins' →
      ∀ fi : Entry, Except.ok fi ∈ walk → fi.isDir = false →
        matchPrefixToTypeID fi.name tm ≠ 0 → fi.path ∈ pathsOf files' := by
  intro walk
  induction walk with
  | nil =>
    intro files ins files' ins' h fi hmem
    cases hmem
  | cons e rest ih =>
    intro files ins files' ins' h fi hmem hdir ht
    cases e with
    | error msg => simp [processEntries] at h
    | ok fj =>
      rw [processEntries_cons_ok] at h
      rcases List.mem_cons.mp hmem with heq | hmem'
      · have hfj : fi = fj := by injection heq
        subst hfj
        rw [if_neg (by simp [hdir]), if_neg (by simp [noFaults])] at h
        by_cases hcount : 0 < countMatching files fi.path
        · rw [if_pos hcount] at h
          obtain ⟨s, hf, -⟩ := processEntries_append noFaults tm rest files ins
          have hfs : files' = files ++ s := by
            have := congrArg ScanResult.files h
            simpa [ScanResult.files] using this.symm.trans hf
          have hin : fi.path ∈ pathsOf files := by
            by_contra hno
            exact absurd (countMatching_eq_zero.mpr hno) (by omega)
          rw [hfs]
          simp only [pathsOf, List.map_append, List.mem_append]
          exact Or.inl (by simpa [pathsOf] using hin)
        · rw [if_neg hcount, if_neg ht, if_neg (by simp [noFaults])] at h
          obtain ⟨s, hf, -⟩ := processEntries_append noFaults tm rest
            (files ++ [⟨fi.name, fi.path, fi.size, fi.modTime,
              matchPrefixToTypeID fi.name tm⟩])
            (ins ++ [⟨fi.name, fi.path, fi.size, fi.modTime,
              matchPrefixToTypeID fi.name tm⟩])
          have hfs : files' = (files ++ [⟨fi.name, fi.path, fi.size, fi.modTime,
              matchPrefixToTypeID fi.name tm⟩]) ++ s := by
            have := congrArg ScanResult.files h
            simpa [ScanResult.files] using this.symm.trans hf
          rw [hfs]
          simp [pathsOf]
      · by_cases hdir' : fj.isDir = true
        · rw [if_pos hdir'] at h
          exact ih _ _ _ _ h fi hmem' hdir ht
        · rw [if_neg hdir', if_neg (by simp [noFaults])] at h
          by_cases hcount : 0 < countMatching files fj.path
          · rw [if_pos hcount] at h
            exact ih _ _ _ _ h fi hmem' hdir ht
          · rw [if_neg hcount] at h
            by_cases ht' : matchPrefixToTypeID fj.name tm = 0
            · rw [if_pos ht'] at h
              exact ih _ _ _ _ h fi hmem' hdir ht
            · rw [if_neg ht', if_neg (by simp [noFaults])] at h
              exact ih _ _ _ _ h fi hmem' hdir ht

/-- When the rule-table query succeeds, a scan cycle is the walk loop run
on the freshly built map with an empty inserted instrumentation. -/
theorem scanAndStoreFiles_ok {flt : Faults} (hq : flt.rulesQueryFails = false)
    (rows : List (Option (String × Int))) (walk : List (Except String Entry))
    (files : List FileRecord) :
    scanAndStoreFiles flt rows walk files =
      processEntries flt (buildTypeMap rows) walk files [] := by
  simp [scanAndStoreFiles, loadTypePrefixMap, hq]

/-! ### Claims -/

/-- C1: deduplication is keyed on the file's full path. The walk loop asks
`fileExistsInDB` for `walker.Path()` and inserts a `FileRecord` only when no
row with that path exists, so a scan cycle — under every fault pattern,
rule table, walk and starting store — preserves uniqueness of `path` among
the store's rows: the system's own writes never create two records with the
same path. -/
theorem claim_C1_dedup_on_path (flt : Faults) (rows : List (Option (String × Int)))
    (walk : List (Except String Entry)) (files : List FileRecord)
    (h : (pathsOf files).Nodup) :
    (pathsOf (scanAndStoreFiles flt rows walk files).files).Nodup := by
  cases hq : flt.rulesQueryFails
  · rw [scanAndStoreFiles_ok hq]
    exact processEntries_nodup flt (buildTypeMap rows) walk files [] h
  · simpa [scanAndStoreFiles, loadTypePrefixMap, hq, ScanResult.files] using h

/-- Witness for C1: a store already holding `/w/a.txt`, scanned over a tree
that yields `/w/a.txt` again plus a fresh `/w/b.txt`, keeps its paths
duplicate-free. -/
theorem claim_C1_dedup_on_path_witness :
    (pathsOf [⟨"a.txt", "/w/a.txt", 1, 2, 3⟩]).Nodup ∧
    (pathsOf (scanAndStoreFiles noFaults [some ("a", 3)]
      [Except.ok ⟨false, "a.txt", "/w/a.txt", 1, 2⟩,
       Except.ok ⟨false, "b.txt", "/w/b.txt", 1, 2⟩]
      [⟨"a.txt", "/w/a.txt", 1, 2, 3⟩]).files).Nodup :=
  ⟨by decide, claim_C1_dedup_on_path noFaults [some ("a", 3)]
    [Except.ok ⟨false, "a.txt", "/w/a.txt", 1, 2⟩,
     Except.ok ⟨false, "b.txt", "/w/b.txt", 1, 2⟩]
    [⟨"a.txt", "/w/a.txt", 1, 2, 3⟩] (by decide)⟩

/-- C2: among all rules whose stored key is an initial segment of the
lower-cased filename, the classifier returns the value of the rule with the
longest key, under every iteration order the Go map and the unstable sort
can produce. -/
theorem claim_C2_longest_wins (typeMap : List (String × Int)) (filename : String)
    (l : List String) (hord : iterOrder typeMap l) (p : String)
    (hmem : p ∈ keysOf typeMap)
    (hmatch : strHasPrefix (strToLower filename) p = true)
    (hmax : ∀ q ∈ keysOf typeMap,
      strHasPrefix (strToLower filename) q = true → q.length ≤ p.length) :
    matchWithOrder filename typeMap l = mapGet typeMap p := by
  obtain ⟨hperm, hsort⟩ := hord
  exact findMatch_longest hsort (hperm.mem_iff.mpr hmem) hmatch
    fun q hq hmq => hmax q (hperm.mem_iff.mp hq) hmq

/-- Witness for C2: rules a↦1, ab↦2 classify "abc.txt" as 2. -/
theorem claim_C2_longest_wins_witness :
    matchWithOrder "abc.txt" [("a", 1), ("ab", 2)] ["ab", "a"] = 2 :=
  (claim_C2_longest_wins [("a", 1), ("ab", 2)] "abc.txt" ["ab", "a"]
    ⟨by decide, by decide⟩ "ab" (by decide) (by decide) (by decide)).trans (by decide)

/-- C3: the scan cycle is idempotent. If a fault-free cycle over a tree
turns the store `files₀` into `files₁` having inserted `ins₁`, then the same
cycle over the unchanged tree and rules run again from `files₁` inserts
nothing and leaves the store at `files₁`; moreover the first run only
appended `ins₁`, those rows have pairwise distinct paths (each qualifying
file was inserted at most once), and every non-directory entry of the walk
that classifies to a nonzero type is recorded in `files₁`. -/
theorem claim_C3_idempotent (rows : List (Option (String × Int)))
    (walk : List (Except String Entry)) (files₀ files₁ ins₁ : List FileRecord)
    (h : scanAndStoreFiles noFaults rows walk files₀ = ScanResult.ok files₁ ins₁) :
    scanAndStoreFiles noFaults rows walk files₁ = ScanResult.ok files₁ [] ∧
    files₁ = files₀ ++ ins₁ ∧
    (pathsOf ins₁).Nodup ∧
    ∀ fi : Entry, Except.ok fi ∈ walk → fi.isDir = false →
      matchPrefixToTypeID fi.name (buildTypeMap rows) ≠ 0 →
      fi.path ∈ pathsOf files₁ := by
  rw [scanAndStoreFiles_ok rfl] at h
  refine ⟨?_, ?_, ?_, ?_⟩
  · rw [scanAndStoreFiles_ok rfl]
    exact processEntries_idem (buildTypeMap rows) walk files₀ [] files₁ ins₁ h
  · obtain ⟨s, hf, hi⟩ := processEntries_append noFaults (buildTypeMap rows) walk files₀ []
    rw [h] at hf hi
    simp only [ScanResult.files, ScanResult.inserted, List.nil_append] at hf hi
    rw [hf, hi]
  · have := (processEntries_inserted_nodup noFaults (buildTypeMap rows) walk files₀ []
      (by simp [pathsOf]) (by simp)).1
    rwa [h] at this
  · exact processEntries_covers (buildTypeMap rows) walk files₀ [] files₁ ins₁ h

/-- Witness for C3: one fresh qualifying file is inserted by the first
cycle, and the second cycle over the unchanged tree inserts nothing. -/
theorem claim_C3_idempotent_witness :
    scanAndStoreFiles noFaults [some ("a", 7)]
      [Except.ok ⟨false, "a.txt", "/w/a.txt", 1, 2⟩]
      [⟨"a.txt", "/w/a.txt", 1, 2, 7⟩] =
      ScanResult.ok [⟨"a.txt", "/w/a.txt", 1, 2, 7⟩] [] :=
  (claim_C3_idempotent [some ("a", 7)]
    [Except.ok ⟨false, "a.txt", "/w/a.txt", 1, 2⟩]
    [] [⟨"a.txt", "/w/a.txt", 1, 2, 7⟩] [⟨"a.txt", "/w/a.txt", 1, 2, 7⟩]
    (by decide)).1

/-- C4: a failing rule-table query is escalated: the loader returns the
error to its caller, the cycle aborts with the wrapped error before any
walk step (store untouched, nothing inserted), and the poll loop carries on
with later cycles on the unchanged store — the process itself does not
terminate. Individually failing rows, by contrast, are skipped and loading
continues: dropping a failing row from the stream leaves the loaded map
unchanged. -/
theorem claim_C4_load_failure (flt : Faults) (hq : flt.rulesQueryFails = true)
    (rows rows₁ rows₂ : List (Option (String × Int)))
    (walk : List (Except String Entry)) (files : List FileRecord)
    (laterCycles : List Faults) :
    loadTypePrefixMap flt.rulesQueryFails rows = Except.error "error en consulta" ∧
    scanAndStoreFiles flt rows walk files =
      ScanResult.err "no se pudieron cargar los prefijos de tipo: error en consulta"
        files [] ∧
    runCycles rows walk (flt :: laterCycles) files = runCycles rows walk laterCycles files ∧
    buildTypeMap (rows₁ ++ none :: rows₂) = buildTypeMap (rows₁ ++ rows₂) := by
  refine ⟨?_, ?_, ?_, buildTypeMap_skip rows₁ rows₂⟩
  · simp [loadTypePrefixMap, hq]
  · simp [scanAndStoreFiles, loadTypePrefixMap, hq]
  · rw [runCycles, cycleFiles]
    simp [scanAndStoreFiles, loadTypePrefixMap, hq, ScanResult.files]

/-- Witness for C4 with a failing query, one later cycle, and one failing
row among two good ones. -/
theorem claim_C4_load_failure_witness :
    loadTypePrefixMap (Faults.mk true [] []).rulesQueryFails [some ("a", 1)] =
      Except.error "error en consulta" ∧
    scanAndStoreFiles ⟨true, [], []⟩ [some ("a", 1)]
      [Except.ok ⟨false, "a.txt", "/w/a.txt", 1, 2⟩] [] =
      ScanResult.err "no se pudieron cargar los prefijos de tipo: error en consulta"
        [] [] ∧
    runCycles [some ("a", 1)] [Except.ok ⟨false, "a.txt", "/w/a.txt", 1, 2⟩]
      [⟨true, [], []⟩, noFaults] [] =
      runCycles [some ("a", 1)] [Except.ok ⟨false, "a.txt", "/w/a.txt", 1, 2⟩]
        [noFaults] [] ∧
    buildTypeMap ([some ("a", 1)] ++ none :: [some ("b", 2)]) =
      buildTypeMap ([some ("a", 1)] ++ [some ("b", 2)]) :=
  claim_C4_load_failure ⟨true, [], []⟩ rfl [some ("a", 1)] [some ("a", 1)]
    [some ("b", 2)] [Except.ok ⟨false, "a.txt", "/w/a.txt", 1, 2⟩] [] [noFaults]

/-- C5: classification is case-insensitive. The loader stores keys
lower-cased and the classifier lower-cases the filename, so replacing the
rule rows by case variants and the filename by a case variant changes
neither the loaded map's behavior nor the classification, for every
admissible iteration order and also for the executable classifier. -/
theorem claim_C5_case_insensitive (rows₁ rows₂ : List (Option (String × Int)))
    (hrows : List.Forall₂ rowsCaseVariant rows₁ rows₂)
    (f₁ f₂ : String) (hf : strToLower f₁ = strToLower f₂) (l : List String) :
    matchWithOrder f₁ (buildTypeMap rows₁) l = matchWithOrder f₂ (buildTypeMap rows₂) l ∧
    matchPrefixToTypeID f₁ (buildTypeMap rows₁) =
      matchPrefixToTypeID f₂ (buildTypeMap rows₂) := by
  have hm := buildTypeMap_case hrows
  constructor
  · simp only [matchWithOrder]
    rw [hf, hm]
  · simp only [matchPrefixToTypeID, matchWithOrder]
    rw [hf, hm]

/-- Witness for C5: rules {"ACH" ↦ 5} and filename "ach_file.txt" classify
the same as their case variants, and the classification is 5. -/
theorem claim_C5_case_insensitive_witness :
    matchPrefixToTypeID "ACH_FILE.TXT" (buildTypeMap [some ("ACH", 5)]) =
      matchPrefixToTypeID "ach_file.txt" (buildTypeMap [some ("ach", 5)]) ∧
    matchPrefixToTypeID "ach_file.txt" (buildTypeMap [some ("ach", 5)]) = 5 :=
  ⟨(claim_C5_case_insensitive [some ("ACH", 5)] [some ("ach", 5)]
      (List.Forall₂.cons ⟨by decide, rfl⟩ List.Forall₂.nil)
      "ACH_FILE.TXT" "ach_file.txt" (by decide) []).2,
    by decide⟩

/-- C6: the classifier is deterministic on a loaded rule table, even one
built from duplicate or equal-length rule rows: any two admissible runs
(map iteration orders fed through the unstable sort) return the same type
id for the same filename and loaded map. -/
theorem claim_C6_deterministic (rows : List (Option (String × Int))) (filename : String)
    (l₁ l₂ : List String) (h₁ : iterOrder (buildTypeMap rows) l₁)
    (h₂ : iterOrder (buildTypeMap rows) l₂) :
    matchWithOrder filename (buildTypeMap rows) l₁ =
      matchWithOrder filename (buildTypeMap rows) l₂ :=
  matchWithOrder_deterministic h₁ h₂

/-- Witness for C6: a table with a duplicate key ("ab" twice, last write
wins) and an equal-length second key, classified under the two opposite
tie orders. -/
theorem claim_C6_deterministic_witness :
    matchWithOrder "abx" (buildTypeMap [some ("ab", 1), some ("AB", 2), some ("cd", 3)])
        ["ab", "cd"] =
      matchWithOrder "abx" (buildTypeMap [some ("ab", 1), some ("AB", 2), some ("cd", 3)])
        ["cd", "ab"] :=
  claim_C6_deterministic [some ("ab", 1), some ("AB", 2), some ("cd", 3)] "abx"
    ["ab", "cd"] ["cd", "ab"] ⟨by decide, by decide⟩ ⟨by decide, by decide⟩

/-- C7: every optional field gets a non-empty default. If the configuration
document omits the watch directory, the scan interval, or the SSH port,
`loadConfig` fills in its documented default, which differs from the Go
zero value. -/
theorem claim_C7_defaults (d : ConfigDoc) :
    (d.watchDir = none → (loadConfig d).watchDir = "./watch_folder") ∧
    (d.scanInterval = none → (loadConfig d).scanInterval = 24) ∧
    (d.sshPort = none → (loadConfig d).sshPort = 22) ∧
    "./watch_folder" ≠ "" ∧ (24 : Int) ≠ 0 ∧ (22 : Int) ≠ 0 := by
  refine ⟨?_, ?_, ?_, by decide, by decide, by decide⟩
  · intro h
    simp [loadConfig, unmarshalConfig, h, apply_ite Config.watchDir]
  · intro h
    simp [loadConfig, unmarshalConfig, h, apply_ite Config.scanInterval,
      apply_ite Config.watchDir]
  · intro h
    simp [loadConfig, unmarshalConfig, h, apply_ite Config.sshPort,
      apply_ite Config.watchDir, apply_ite Config.scanInterval]

/-- Witness for C7 at the empty document. -/
theorem claim_C7_defaults_witness :
    (loadConfig ⟨none, none, none, none, none, none, none⟩).watchDir =
      "./watch_folder" ∧
    (loadConfig ⟨none, none, none, none, none, none, none⟩).scanInterval = 24 ∧
    (loadConfig ⟨none, none, none, none, none, none, none⟩).sshPort = 22 :=
  ⟨(claim_C7_defaults ⟨none, none, none, none, none, none, none⟩).1 rfl,
   (claim_C7_defaults ⟨none, none, none, none, none, none, none⟩).2.1 rfl,
   (claim_C7_defaults ⟨none, none, none, none, none, none, none⟩).2.2.1 rfl⟩

/-- C8: the Existence Checker answers `false` exactly when the query
succeeded and zero rows match the path; a failing query is propagated as an
error, never reported as "does not exist". -/
theorem claim_C8_exists_check (flt : Faults) (files : List FileRecord) (p : String) :
    (p ∈ flt.existsFailPaths → fileExistsInDB flt files p = Except.error "query failed") ∧
    (fileExistsInDB flt files p = Except.ok false ↔
      p ∉ flt.existsFailPaths ∧ countMatching files p = 0) := by
  constructor
  · intro h
    simp [fileExistsInDB, h]
  · by_cases h : p ∈ flt.existsFailPaths
    · simp [fileExistsInDB, h]
    · simp [fileExistsInDB, h, Nat.pos_iff_ne_zero]

/-- Witness for C8: a store whose lookup fails on `/w/x` errors there, and
answers `false` for an absent path. -/
theorem claim_C8_exists_check_witness :
    fileExistsInDB ⟨false, ["/w/x"], []⟩ [] "/w/x" = Except.error "query failed" ∧
    (fileExistsInDB ⟨false, ["/w/x"], []⟩ [] "/w/y" = Except.ok false ↔
      "/w/y" ∉ (Faults.mk false ["/w/x"] []).existsFailPaths ∧
      countMatching [] "/w/y" = 0) :=
  ⟨(claim_C8_exists_check ⟨false, ["/w/x"], []⟩ [] "/w/x").1 (by decide),
   (claim_C8_exists_check ⟨false, ["/w/x"], []⟩ [] "/w/y").2⟩

/-- C9: a record-insert failure never aborts the scan. A failed insert
leaves the store unchanged, and the walk continues over the remaining
entries exactly as if the file had been skipped: every subsequent file is
still checked, classified, and (when qualifying) recorded. -/
theorem claim_C9_insert_failure_isolated (flt : Faults) (tm : List (String × Int))
    (fi : Entry) (rest : List (Except String Entry)) (files ins : List FileRecord)
    (hdir : fi.isDir = false) (hex : fi.path ∉ flt.existsFailPaths)
    (hnew : countMatching files fi.path = 0)
    (ht : matchPrefixToTypeID fi.name tm ≠ 0)
    (hfail : fi.path ∈ flt.insertFailPaths) :
    insertFile flt files ⟨fi.name, fi.path, fi.size, fi.modTime,
      matchPrefixToTypeID fi.name tm⟩ = files ∧
    processEntries flt tm (Except.ok fi :: rest) files ins =
      processEntries flt tm rest files ins := by
  constructor
  · simp [insertFile, hfail]
  · rw [processEntries_cons_ok, if_neg (by simp [hdir]), if_neg hex,
      if_neg (by omega), if_neg ht, if_pos hfail]

/-- Witness for C9: the insert of `/w/a.txt` fails, the store stays empty,
and the subsequent entry `/w/b.txt` is still recorded. -/
theorem claim_C9_insert_failure_isolated_witness :
    processEntries ⟨false, [], ["/w/a.txt"]⟩ [("a", 1), ("b", 2)]
      [Except.ok ⟨false, "a.txt", "/w/a.txt", 1, 2⟩,
       Except.ok ⟨false, "b.txt", "/w/b.txt", 1, 2⟩] [] [] =
      processEntries ⟨false, [], ["/w/a.txt"]⟩ [("a", 1), ("b", 2)]
        [Except.ok ⟨false, "b.txt", "/w/b.txt", 1, 2⟩] [] [] ∧
    processEntries ⟨false, [], ["/w/a.txt"]⟩ [("a", 1), ("b", 2)]
      [Except.ok ⟨false, "b.txt", "/w/b.txt", 1, 2⟩] [] [] =
      ScanResult.ok [⟨"b.txt", "/w/b.txt", 1, 2, 2⟩] [⟨"b.txt", "/w/b.txt", 1, 2, 2⟩] :=
  ⟨(claim_C9_insert_failure_isolated ⟨false, [], ["/w/a.txt"]⟩ [("a", 1), ("b", 2)]
      ⟨false, "a.txt", "/w/a.txt", 1, 2⟩
      [Except.ok ⟨false, "b.txt", "/w/b.txt", 1, 2⟩] [] []
      rfl (by decide) (by decide) (by decide) (by decide)).2,
    by decide⟩

/-- C10: a rule whose type id is `0` is indistinguishable from "no match".
If the longest matching rule for a filename stores `0`, the classifier
returns `0` — the same value it returns when nothing matches — and the walk
loop therefore skips the file (its diagnostic branch) and never records it. -/
theorem claim_C10_zero_type_skips (tm : List (String × Int)) (l : List String)
    (hord : iterOrder tm l) (p : String) (hmem : p ∈ keysOf tm)
    (hzero : mapGet tm p = 0) (flt : Faults) (fi : Entry)
    (rest : List (Except String Entry)) (files ins : List FileRecord)
    (hdir : fi.isDir = false)
    (hmatch : strHasPrefix (strToLower fi.name) p = true)
    (hmax : ∀ q ∈ keysOf tm,
      strHasPrefix (strToLower fi.name) q = true → q.length ≤ p.length)
    (hex : fi.path ∉ flt.existsFailPaths)
    (hnew : countMatching files fi.path = 0) :
    matchPrefixToTypeID fi.name tm = 0 ∧
    processEntries flt tm (Except.ok fi :: rest) files ins =
      processEntries flt tm rest files ins := by
  obtain ⟨hperm, hsort⟩ := hord
  have h0 : matchPrefixToTypeID fi.name tm = 0 := by
    rw [matchPrefixToTypeID_eq_matchWithOrder ⟨hperm, hsort⟩, matchWithOrder]
    exact (findMatch_longest hsort (hperm.mem_iff.mpr hmem) hmatch
      fun q hq hmq => hmax q (hperm.mem_iff.mp hq) hmq).trans hzero
  refine ⟨h0, ?_⟩
  rw [processEntries_cons_ok, if_neg (by simp [hdir]), if_neg hex,
    if_neg (by omega), if_pos h0]

/-- Witness for C10: the rule rep↦0 matches "report.csv", the classifier
returns 0, and the file is skipped. -/
theorem claim_C10_zero_type_skips_witness :
    matchPrefixToTypeID "report.csv" [("rep", 0)] = 0 ∧
    processEntries noFaults [("rep", 0)]
      [Except.ok ⟨false, "report.csv", "/w/report.csv", 1, 2⟩] [] [] =
      processEntries noFaults [("rep", 0)] [] [] [] :=
  claim_C10_zero_type_skips [("rep", 0)] ["rep"] ⟨by decide, by decide⟩ "rep"
    (by decide) (by decide) noFaults ⟨false, "report.csv", "/w/report.csv", 1, 2⟩
    [] [] [] rfl (by decide) (by decide) (by decide) (by decide)

end Scanner
